import Mathlib

/-!
Verification development for the `prime_generator` repository
(`src/main.rs`). The Rust program is shallowly embedded below:

* numbers: `u128` values and `num_bigint::BigInt` values appearing in the
  program are nonnegative, so both are embedded as `ℕ` (overflow never
  occurs on the embedded operations: `BigInt` is unbounded, and the only
  `u128` arithmetic performed is `i + 2`, `i * i` and `% `, on values far
  below `2 ^ 128`);
* the two floating-point casts and the hardware square root inside
  `is_prime` are modeled exactly (IEEE-754 binary64, round to nearest,
  ties to even; `as u128` truncates toward zero);
* the concurrent pipeline of `main` is embedded as a sequential fold:
  every mutation of the shared buffer happens inside one mutex, so a run
  is a linearization of `append`/`flush` steps; the properties proved
  about the run are invariant under the interleaving order;
* fallible operations return `Option`, file contents are explicit values.
-/

set_option maxRecDepth 4000000
set_option maxHeartbeats 4000000

/-- Flush threshold for the bounded buffer, `src/main.rs` line 38. -/
def FLUSH_THRESHOLD : ℕ := 10000

/-- Models `num_bigint`'s `ToBigInt` implementation for `u128`
(`n.to_bigint()` in `calculate_powers`, line 186): converting an unsigned
128-bit integer to a `BigInt` always succeeds and is value-preserving. -/
def u128_to_bigint (n : ℕ) : Option ℕ :=
  some n

/-- Embeds `calculate_powers` (`src/main.rs` lines 185-191):
`squared = big_n * big_n`, `cubed = squared * big_n`,
`to_fourth_power = squared * squared`, computed on `BigInt`. -/
def calculate_powers (n : ℕ) : Option (ℕ × ℕ × ℕ) :=
  match u128_to_bigint n with
  | none => none
  | some big_n => some (big_n * big_n, big_n * big_n * big_n, (big_n * big_n) * (big_n * big_n))

/-- Models the Rust cast `n as f64` on a `u128` value: the result is the
IEEE-754 binary64 value nearest to `n`, ties going to the even significand
(Rust reference, numeric casts: an integer-to-float cast rounds to the
nearest representable value, ties to even). A binary64 number carries a
53-bit significand, so for `n < 2 ^ 53` the cast is exact, and otherwise
`n` lies in `[2 ^ (k + 52), 2 ^ (k + 53))` with `k = n.log2 - 52` and the
representable neighbours are the multiples of `2 ^ k`. The result is again
a natural number. -/
def roundF64 (n : ℕ) : ℕ :=
  if n < 2 ^ 53 then n
  else
    let k := n.log2 - 52
    let q := n / 2 ^ k
    let r := n % 2 ^ k
    if 2 * r < 2 ^ k then q * 2 ^ k
    else if 2 ^ k < 2 * r then (q + 1) * 2 ^ k
    else if q % 2 = 0 then q * 2 ^ k
    else (q + 1) * 2 ^ k

/-- Models `x.sqrt() as u128` applied to a binary64 value that holds a
natural number `m` (the shape produced by `roundF64`). IEEE-754 requires
`sqrt` to be correctly rounded: the result is the representable value
nearest to the real `√m`, ties to even. With `a = ⌊√m⌋` and
`j = a.log2` (so `2 ^ j ≤ √m < 2 ^ (j + 1)`), the representable values
around `√m` are the numbers `v * 2 ^ (j - 52)` when `j ≥ 52`, and the
numbers `v / 2 ^ (52 - j)` (`v` an integer significand) when `j < 52`.
The two candidates bracketing `√m` are compared via their squares, and
the final `as u128` cast truncates toward zero. -/
def truncF64Sqrt (m : ℕ) : ℕ :=
  let a := Nat.sqrt m
  let j := a.log2
  if 52 ≤ j then
    let e := j - 52
    let q := a / 2 ^ e
    if ((2 * q + 1) * 2 ^ e) ^ 2 < 4 * m then (q + 1) * 2 ^ e
    else if 4 * m < ((2 * q + 1) * 2 ^ e) ^ 2 then q * 2 ^ e
    else if q % 2 = 0 then q * 2 ^ e
    else (q + 1) * 2 ^ e
  else
    let e := 52 - j
    let b := Nat.sqrt (m * 4 ^ e)
    let v :=
      if (2 * b + 1) ^ 2 < 4 ^ (e + 1) * m then b + 1
      else if 4 ^ (e + 1) * m < (2 * b + 1) ^ 2 then b
      else if b % 2 = 0 then b
      else b + 1
    v / 2 ^ e

/-- Embeds the iterator `(5..=limit).step_by(6)` of the `u128` fast path
(`src/main.rs` line 203): the values `5, 11, 17, …` up to `limit`. -/
def trialList (limit : ℕ) : List ℕ :=
  if limit < 5 then [] else List.range' 5 ((limit - 5) / 6 + 1) 6

/-- Embeds the `u128` fast path of `is_prime` (`src/main.rs` lines
195-205), taken when `big_n.to_u128()` succeeds: match on `0 | 1`,
`2 | 3`, divisibility by 2 or 3, then trial division by `i` and `i + 2`
for `i` in `(5..=limit).step_by(6)` with
`limit = (n as f64).sqrt() as u128 + 1`. -/
def is_prime_u128 (n : ℕ) : Bool :=
  if n = 0 ∨ n = 1 then false
  else if n = 2 ∨ n = 3 then true
  else if n % 2 = 0 ∨ n % 3 = 0 then false
  else
    (trialList (truncF64Sqrt (roundF64 n) + 1)).all fun i =>
      decide (n % i ≠ 0) && decide (n % (i + 2) ≠ 0)

/-- Embeds the `BigInt` trial-division loop of `is_prime`
(`src/main.rs` lines 215-221): `while i * i <= n`, testing `i` and
`i + 2`, stepping by 6. -/
def trialLoop (n i : ℕ) : Bool :=
  if i * i ≤ n then
    if n % i = 0 || n % (i + 2) = 0 then false
    else trialLoop n (i + 6)
  else true
termination_by n + 1 - i * i
decreasing_by
  have h1 : i * i < (i + 6) * (i + 6) := by nlinarith
  omega

/-- Embeds the arbitrary-precision fallback path of `is_prime`
(`src/main.rs` lines 206-223), on nonnegative `BigInt` values: values
`≤ 1`, `2`, `3` return `big_n > 1`; multiples of 2 or 3 return false;
otherwise the 6k±1 loop runs from `i = 5`. -/
def is_prime_big (n : ℕ) : Bool :=
  if n ≤ 1 ∨ n = 2 ∨ n = 3 then decide (1 < n)
  else if n % 2 = 0 ∨ n % 3 = 0 then false
  else trialLoop n 5

/-- Embeds `is_prime` (`src/main.rs` lines 194-224). `big_n.to_u128()`
succeeds exactly on nonnegative values below `2 ^ 128`, selecting the
native fast path; larger values take the `BigInt` fallback path. -/
def is_prime (n : ℕ) : Bool :=
  if n < 2 ^ 128 then is_prime_u128 n else is_prime_big n

/-- Embeds the pool sizing in `main` (`src/main.rs` lines 106-115):
`num_cpus` is the user-supplied `--cpus` value when present (parsed as
`usize`; a non-numeric or negative string panics inside `expect`),
otherwise the derived default, and the rayon pool is built with
`thread_count` threads. -/
def thread_count (num_cpus : ℕ) : ℕ :=
  if 1 < num_cpus then num_cpus - 1 else 1

/-- One row of the output CSV file: the header line written by
`csv::Writer`, or a serialized record line of four rendered fields. -/
inductive Row where
  | header : Row
  | data : List String → Row
deriving DecidableEq

/-- One buffered element of `temp_storage` (`src/main.rs` line 152): the
prime together with the pushed vector
`vec![squared, cubed, to_fourth_power]`. -/
abbrev Entry : Type := ℕ × ℕ × ℕ × ℕ

/-- Serialization of one `PrimeRecord` built in `flush_to_csv`
(`src/main.rs` lines 234-241): the `u128` prime and the three `BigInt`
powers, each rendered in base 10 (`to_str_radix(10)`; `serde` renders the
`u128` field in decimal as well). -/
def renderEntry (e : Entry) : Row :=
  Row.data [Nat.repr e.1, Nat.repr e.2.1, Nat.repr e.2.2.1, Nat.repr e.2.2.2]

/-- State of one `csv::Writer`: whether the automatic header was already
written, and the rows emitted so far. -/
structure CsvWriter where
  wroteHeader : Bool
  out : List Row
deriving DecidableEq

/-- Models `csv::Writer::serialize` on a struct with named fields: with
the default `has_headers(true)`, the first `serialize` call on a writer
emits the header row (the field names of `PrimeRecord`) before the
record. -/
def serializeRecord (w : CsvWriter) (e : Entry) : CsvWriter :=
  if w.wroteHeader then ⟨true, w.out ++ [renderEntry e]⟩
  else ⟨true, w.out ++ [Row.header, renderEntry e]⟩

/-- Serializes a batch of records through one `csv::Writer`. -/
def writeAll (w : CsvWriter) (es : List Entry) : CsvWriter :=
  es.foldl serializeRecord w

/-- Embeds `flush_to_csv` (`src/main.rs` lines 227-247): open the file in
append mode (creating it when absent), build a fresh `csv::Writer` over
it, serialize every buffered record in order, flush, and clear
`temp_storage`. Returns the new buffer contents and the new file
contents. -/
def flush_to_csv (temp_storage : List Entry) (file : List Row) : List Entry × List Row :=
  ([], file ++ (writeAll ⟨false, []⟩ temp_storage).out)

/-- Embeds `write_to_csv` (`src/main.rs` lines 249-271): the same writer
protocol, appending every entry of the final map to the file. -/
def write_to_csv (data : List Entry) (file : List Row) : List Row :=
  file ++ (writeAll ⟨false, []⟩ data).out

/-- Embeds `primes_and_powers` (`src/main.rs` line 127): the map is
created empty and no statement of the program ever inserts into it, so
its value at line 176 is the empty map. -/
def primes_and_powers : List Entry :=
  []

/-- State of a run: the shared `temp_storage` buffer, the CSV file
contents, and the number of threshold-triggered flushes so far. -/
structure RunState where
  storage : List Entry
  file : List Row
  flushes : ℕ
deriving DecidableEq

/-- Embeds one buffer append by a worker (`src/main.rs` lines 151-157):
push the record, and if the buffer length reached `FLUSH_THRESHOLD`,
flush it to the CSV file while still holding the lock. `flushes` counts
these threshold-triggered flushes. -/
def appendEntry (st : RunState) (e : Entry) : RunState :=
  if FLUSH_THRESHOLD ≤ (st.storage ++ [e]).length then
    ⟨(flush_to_csv (st.storage ++ [e]) st.file).1,
     (flush_to_csv (st.storage ++ [e]) st.file).2,
     st.flushes + 1⟩
  else ⟨st.storage ++ [e], st.file, st.flushes⟩

/-- Embeds the final drain (`src/main.rs` lines 165-170): flush the
remaining records when the buffer is nonempty. The boolean reports
whether a drain-flush happened. -/
def drainRemaining (st : RunState) : RunState × Bool :=
  if st.storage = [] then (st, false)
  else
    (⟨(flush_to_csv st.storage st.file).1,
      (flush_to_csv st.storage st.file).2,
      st.flushes⟩, true)

/-- Embeds the candidate pre-filter (`src/main.rs` lines 137-146): every
`n` in the inclusive range `start..=end` with `n % 2 == 1 || n == 2`. -/
def candidates (start fin : ℕ) : List ℕ :=
  (List.range' start (fin + 1 - start) 1).filter fun n => decide (n % 2 = 1) || decide (n = 2)

/-- Embeds one worker unit of `main` (`src/main.rs` lines 147-162): test
primality, compute the powers, append the record; on a `None` from
`calculate_powers` print the overflow diagnostic and skip the record. -/
def processCandidate (st : RunState) (n : ℕ) : RunState :=
  if is_prime n then
    match calculate_powers n with
    | some (squared, cubed, to_fourth_power) =>
        appendEntry st (n, squared, cubed, to_fourth_power)
    | none => st
  else st

/-- Embeds one whole scan of `main` (`src/main.rs` lines 137-170): the
parallel iteration is linearized into a fold over the filtered
candidates (every buffer mutation is serialized by the mutex), followed
by the final drain. -/
def runScan (start fin : ℕ) : RunState × Bool :=
  drainRemaining ((candidates start fin).foldl processCandidate ⟨[], [], 0⟩)

/-- Record rows of a CSV file: every row that is not a header line. -/
def dataRows (file : List Row) : List Row :=
  file.filter fun r => decide (r ≠ Row.header)

/-- Binary modular exponentiation with explicit fuel, used to check the
Lucas certificates below by kernel evaluation. -/
def powModAux : ℕ → ℕ → ℕ → ℕ → ℕ
  | 0, _, _, M => 1 % M
  | fuel + 1, b, k, M =>
    if k = 0 then 1 % M
    else
      let h := powModAux fuel (b * b % M) (k / 2) M
      if k % 2 = 1 then h * b % M else h

/-! ## Modular exponentiation and Lucas certificates -/

theorem powModAux_correct (fuel : ℕ) :
    ∀ b k M : ℕ, k < 2 ^ fuel → powModAux fuel b k M = b ^ k % M := by
  induction fuel with
  | zero =>
    intro b k M hk
    have hk0 : k = 0 := by omega
    subst hk0
    simp [powModAux]
  | succ fuel ih =>
    intro b k M hk
    rw [powModAux]
    by_cases h0 : k = 0
    · simp [h0]
    · have hk2 : k / 2 < 2 ^ fuel := by
        have h2 : (2 : ℕ) ^ (fuel + 1) = 2 * 2 ^ fuel := by ring
        omega
      rw [if_neg h0, ih (b * b % M) (k / 2) M hk2, ← Nat.pow_mod, ← pow_two, ← pow_mul]
      by_cases h1 : k % 2 = 1
      · rw [if_pos h1, Nat.mod_mul_mod, ← pow_succ]
        have hke : 2 * (k / 2) + 1 = k := by omega
        rw [hke]
      · rw [if_neg h1]
        have hke : 2 * (k / 2) = k := by omega
        rw [hke]

/-- Lucas primality criterion phrased over natural-number modular
arithmetic, so that the certificate conditions can be discharged by
kernel evaluation of `powModAux`. `L` is a list covering every prime
factor of `p - 1`. -/
theorem lucas_nat (p g : ℕ) (L : List ℕ)
    (hg : g ^ (p - 1) % p = 1 % p)
    (hcov : ∀ r : ℕ, r.Prime → r ∣ p - 1 → r ∈ L)
    (hne : ∀ r ∈ L, g ^ ((p - 1) / r) % p ≠ 1 % p) :
    Nat.Prime p := by
  apply lucas_primality p (g : ZMod p)
  · have h1 : ((g ^ (p - 1) : ℕ) : ZMod p) = ((1 : ℕ) : ZMod p) :=
      (ZMod.natCast_eq_natCast_iff _ _ _).mpr hg
    push_cast at h1
    exact h1
  · intro r hr hdvd hcontra
    apply hne r (hcov r hr hdvd)
    have h1 : ((g ^ ((p - 1) / r) : ℕ) : ZMod p) = ((1 : ℕ) : ZMod p) := by
      push_cast
      exact hcontra
    exact (ZMod.natCast_eq_natCast_iff _ _ _).mp h1

/-- The prime used in the floating-point counterexample below: its square
lies in `(2 ^ 109, 2 ^ 110)`, it is `3 mod 4` and `5 mod 6`, and
`Pbad - 1 = 2 * 113 * 293 * 2437 * 12301 * 16007` is fully factored,
with Lucas witness 5. -/
def Pbad : ℕ := 31774736088871463

theorem Pbad_prime : Nat.Prime Pbad := by
  apply lucas_nat Pbad 5 [2, 113, 293, 2437, 12301, 16007]
  · rw [show Pbad - 1 = 31774736088871462 from by norm_num [Pbad]]
    rw [← powModAux_correct 60 5 31774736088871462 Pbad (by norm_num)]
    decide
  · intro r hr hdvd
    rw [show Pbad - 1 = 2 * 113 * 293 * 2437 * 12301 * 16007 from by norm_num [Pbad]] at hdvd
    rcases hr.dvd_mul.mp hdvd with h | hf
    · rcases hr.dvd_mul.mp h with h | hf
      · rcases hr.dvd_mul.mp h with h | hf
        · rcases hr.dvd_mul.mp h with h | hf
          · rcases hr.dvd_mul.mp h with hf | hf
            · have he := (Nat.prime_dvd_prime_iff_eq hr (by norm_num)).mp hf
              subst he
              decide
            · have he := (Nat.prime_dvd_prime_iff_eq hr (by norm_num)).mp hf
              subst he
              decide
          · have he := (Nat.prime_dvd_prime_iff_eq hr (by norm_num)).mp hf
            subst he
            decide
        · have he := (Nat.prime_dvd_prime_iff_eq hr (by norm_num)).mp hf
          subst he
          decide
      · have he := (Nat.prime_dvd_prime_iff_eq hr (by norm_num)).mp hf
        subst he
        decide
    · have he := (Nat.prime_dvd_prime_iff_eq hr (by norm_num)).mp hf
      subst he
      decide
  · intro r hrL
    fin_cases hrL
    · rw [show (Pbad - 1) / 2 = 15887368044435731 from by norm_num [Pbad]]
      rw [← powModAux_correct 60 5 15887368044435731 Pbad (by norm_num)]
      decide
    · rw [show (Pbad - 1) / 113 = 281192354768774 from by norm_num [Pbad]]
      rw [← powModAux_correct 60 5 281192354768774 Pbad (by norm_num)]
      decide
    · rw [show (Pbad - 1) / 293 = 108446198255534 from by norm_num [Pbad]]
      rw [← powModAux_correct 60 5 108446198255534 Pbad (by norm_num)]
      decide
    · rw [show (Pbad - 1) / 2437 = 13038463721326 from by norm_num [Pbad]]
      rw [← powModAux_correct 60 5 13038463721326 Pbad (by norm_num)]
      decide
    · rw [show (Pbad - 1) / 12301 = 2583101868862 from by norm_num [Pbad]]
      rw [← powModAux_correct 60 5 2583101868862 Pbad (by norm_num)]
      decide
    · rw [show (Pbad - 1) / 16007 = 1985052545066 from by norm_num [Pbad]]
      rw [← powModAux_correct 60 5 1985052545066 Pbad (by norm_num)]
      decide

/-! ## Square root and logarithm facts for the floating-point model -/

theorem sqrt_eq_of_bounds {a m : ℕ} (h1 : a * a ≤ m) (h2 : m < (a + 1) * (a + 1)) :
    Nat.sqrt m = a :=
  le_antisymm (Nat.lt_succ_iff.mp (Nat.sqrt_lt.mpr h2)) (Nat.le_sqrt.mpr h1)

theorem log2_eq_of_bounds {n k : ℕ} (h1 : 2 ^ k ≤ n) (h2 : n < 2 ^ (k + 1)) :
    Nat.log2 n = k := by
  have hn : n ≠ 0 := by
    have := Nat.one_le_two_pow (n := k)
    omega
  have ha := (Nat.le_log2 hn).mpr h1
  have hb := (Nat.log2_lt hn).mpr h2
  omega

theorem sqrt_scale_lower (n k : ℕ) : Nat.sqrt n * 2 ^ k ≤ Nat.sqrt (n * 4 ^ k) := by
  apply Nat.le_sqrt.mpr
  have h4 : (4 : ℕ) ^ k = 2 ^ k * 2 ^ k := by
    rw [show (4 : ℕ) = 2 * 2 from rfl, mul_pow]
  calc Nat.sqrt n * 2 ^ k * (Nat.sqrt n * 2 ^ k)
      = Nat.sqrt n * Nat.sqrt n * (2 ^ k * 2 ^ k) := by ring
    _ ≤ n * (2 ^ k * 2 ^ k) := Nat.mul_le_mul_right _ (Nat.sqrt_le n)
    _ = n * 4 ^ k := by rw [h4]

theorem sqrt_scale_upper (n k : ℕ) : Nat.sqrt (n * 4 ^ k) < (Nat.sqrt n + 1) * 2 ^ k := by
  apply Nat.sqrt_lt.mpr
  have h4 : (4 : ℕ) ^ k = 2 ^ k * 2 ^ k := by
    rw [show (4 : ℕ) = 2 * 2 from rfl, mul_pow]
  calc n * 4 ^ k = n * (2 ^ k * 2 ^ k) := by rw [h4]
    _ < (Nat.sqrt n + 1) * (Nat.sqrt n + 1) * (2 ^ k * 2 ^ k) := by
        have := Nat.lt_succ_sqrt n
        have hpos : 0 < 2 ^ k * 2 ^ k := by positivity
        exact Nat.mul_lt_mul_of_lt_of_le this (le_refl _) hpos
    _ = (Nat.sqrt n + 1) * 2 ^ k * ((Nat.sqrt n + 1) * 2 ^ k) := by ring

theorem sqrt_scale (n k : ℕ) : Nat.sqrt (n * 4 ^ k) / 2 ^ k = Nat.sqrt n := by
  have hpos : 0 < (2 : ℕ) ^ k := Nat.pos_pow_of_pos k (by norm_num)
  apply le_antisymm
  · exact Nat.lt_succ_iff.mp ((Nat.div_lt_iff_lt_mul hpos).mpr (sqrt_scale_upper n k))
  · exact (Nat.le_div_iff_mul_le hpos).mpr (sqrt_scale_lower n k)

theorem roundF64_small {n : ℕ} (h : n < 2 ^ 53) : roundF64 n = n := by
  unfold roundF64
  rw [if_pos h]

theorem truncF64Sqrt_small {n : ℕ} (h : n < 2 ^ 53) :
    truncF64Sqrt n = Nat.sqrt n ∨ truncF64Sqrt n = Nat.sqrt n + 1 := by
  have hj : (Nat.sqrt n).log2 < 52 := by
    rcases Nat.eq_zero_or_pos (Nat.sqrt n) with h0 | h0
    · rw [h0, Nat.log2_zero]
      norm_num
    · have hlt : Nat.sqrt n < 2 ^ 27 := by
        by_contra hge
        push_neg at hge
        have hm : 2 ^ 27 * 2 ^ 27 ≤ Nat.sqrt n * Nat.sqrt n := Nat.mul_le_mul hge hge
        have hs := Nat.sqrt_le n
        norm_num at hm
        omega
      have := (Nat.log2_lt (by omega)).mpr (lt_of_lt_of_le hlt (by norm_num : (2:ℕ) ^ 27 ≤ 2 ^ 52))
      omega
  simp only [truncF64Sqrt]
  rw [if_neg (by omega)]
  set e := 52 - (Nat.sqrt n).log2 with he
  set b := Nat.sqrt (n * 4 ^ e) with hb
  have hpos : 0 < (2 : ℕ) ^ e := Nat.pos_pow_of_pos e (by norm_num)
  have hdivb : b / 2 ^ e = Nat.sqrt n := sqrt_scale n e
  have hub : b < (Nat.sqrt n + 1) * 2 ^ e := sqrt_scale_upper n e
  have h1 : (b + 1) / 2 ^ e ≤ Nat.sqrt n + 1 := by
    calc (b + 1) / 2 ^ e ≤ ((Nat.sqrt n + 1) * 2 ^ e) / 2 ^ e :=
          Nat.div_le_div_right (by omega)
      _ = Nat.sqrt n + 1 := Nat.mul_div_cancel _ hpos
  have h2 : Nat.sqrt n ≤ (b + 1) / 2 ^ e := by
    rw [← hdivb]
    exact Nat.div_le_div_right (by omega)
  split_ifs with c1 c2 c3
  · omega
  · left
    exact hdivb
  · left
    exact hdivb
  · omega

theorem mem_trialList {i limit : ℕ} :
    i ∈ trialList limit ↔ i % 6 = 5 ∧ 5 ≤ i ∧ i ≤ limit := by
  unfold trialList
  split_ifs with h
  · simp
    omega
  · rw [List.mem_range']
    constructor
    · rintro ⟨k, hk, rfl⟩
      omega
    · rintro ⟨h5, h5le, hle⟩
      exact ⟨(i - 5) / 6, by omega, by omega⟩

/-- Correctness of the 6k±1 trial-division scheme of the fast path, for
any limit within the window `[√n, √n + 2]` actually produced by the
floating-point computation on small inputs. -/
theorem all_trialList_iff {n limit : ℕ} (hn : 3 < n) (h2 : ¬ 2 ∣ n) (h3 : ¬ 3 ∣ n)
    (hlo : Nat.sqrt n ≤ limit) (hhi : limit ≤ Nat.sqrt n + 2) :
    (((trialList limit).all fun i => decide (n % i ≠ 0) && decide (n % (i + 2) ≠ 0)) = true)
      ↔ Nat.Prime n := by
  rw [List.all_eq_true]
  constructor
  · intro hall
    by_contra hnp
    have hq : (n.minFac).Prime := Nat.minFac_prime (by omega)
    have hqd : n.minFac ∣ n := Nat.minFac_dvd n
    have hsq : n.minFac ^ 2 ≤ n := Nat.minFac_sq_le_self (by omega) hnp
    have hq2 : n.minFac ≠ 2 := fun hc => h2 (hc ▸ hqd)
    have hq3 : n.minFac ≠ 3 := fun hc => h3 (hc ▸ hqd)
    have hq4 : n.minFac ≠ 4 := fun hc => by
      rw [hc] at hq
      norm_num at hq
    have hq5 : 5 ≤ n.minFac := by
      have := hq.two_le
      omega
    have hqs : n.minFac ≤ Nat.sqrt n := Nat.le_sqrt'.mpr hsq
    have hmod : n.minFac % 6 = 1 ∨ n.minFac % 6 = 5 := by
      have hd2 : ¬ 2 ∣ n.minFac := fun hd => h2 (hd.trans hqd)
      have hd3 : ¬ 3 ∣ n.minFac := fun hd => h3 (hd.trans hqd)
      omega
    have hmodn : n % n.minFac = 0 := Nat.mod_eq_zero_of_dvd hqd
    rcases hmod with h1 | h5
    · have hmem : (n.minFac - 2) ∈ trialList limit := mem_trialList.mpr (by omega)
      have ht := hall _ hmem
      simp only [Bool.and_eq_true, decide_eq_true_eq] at ht
      have he : n.minFac - 2 + 2 = n.minFac := by omega
      rw [he] at ht
      exact ht.2 hmodn
    · have hmem : n.minFac ∈ trialList limit := mem_trialList.mpr (by omega)
      have ht := hall _ hmem
      simp only [Bool.and_eq_true, decide_eq_true_eq] at ht
      exact ht.1 hmodn
  · intro hp i hi
    rw [mem_trialList] at hi
    obtain ⟨hi6, hi5, hile⟩ := hi
    simp only [Bool.and_eq_true, decide_eq_true_eq]
    have hs := Nat.sqrt_le n
    constructor
    · intro hmod
      have hdvd : i ∣ n := Nat.dvd_of_mod_eq_zero hmod
      rcases hp.eq_one_or_self_of_dvd i hdvd with h | h
      · omega
      · have hsmall : Nat.sqrt n ≤ 2 := by
          by_contra hbig
          push_neg at hbig
          nlinarith
        omega
    · intro hmod
      have hdvd : (i + 2) ∣ n := Nat.dvd_of_mod_eq_zero hmod
      rcases hp.eq_one_or_self_of_dvd (i + 2) hdvd with h | h
      · omega
      · have hsmall : Nat.sqrt n ≤ 2 := by
          by_contra hbig
          push_neg at hbig
          nlinarith
        omega

/-- The u128 fast path decides primality correctly on every input below
`2 ^ 53`, where the floating-point square root is exact enough that the
computed trial-division limit lies in `[√n + 1, √n + 2]`. -/
theorem is_prime_u128_iff {n : ℕ} (h : n < 2 ^ 53) :
    is_prime_u128 n = true ↔ Nat.Prime n := by
  unfold is_prime_u128
  split_ifs with h01 h23 hdiv
  · constructor
    · intro hf
      exact absurd hf (by simp)
    · intro hp
      rcases h01 with rfl | rfl
      · exact absurd hp (by norm_num)
      · exact absurd hp (by norm_num)
  · constructor
    · intro _
      rcases h23 with rfl | rfl
      · norm_num
      · norm_num
    · intro _
      rfl
  · push_neg at h01 h23
    constructor
    · intro hf
      exact absurd hf (by simp)
    · intro hp
      exfalso
      rcases hdiv with hd | hd
      · have hdd : (2 : ℕ) ∣ n := Nat.dvd_of_mod_eq_zero hd
        rcases hp.eq_one_or_self_of_dvd 2 hdd with hh | hh <;> omega
      · have hdd : (3 : ℕ) ∣ n := Nat.dvd_of_mod_eq_zero hd
        rcases hp.eq_one_or_self_of_dvd 3 hdd with hh | hh <;> omega
  · push_neg at h01 h23 hdiv
    have h2' : ¬ 2 ∣ n := by omega
    have h3' : ¬ 3 ∣ n := by omega
    rw [roundF64_small h]
    rcases truncF64Sqrt_small h with he | he <;> rw [he]
    · exact all_trialList_iff (by omega) h2' h3' (by omega) (by omega)
    · exact all_trialList_iff (by omega) h2' h3' (by omega) (by omega)

/-! ## Correctness of the arbitrary-precision fallback path -/

theorem trialLoop_false_aux {n q : ℕ} (hdvd : q ∣ n) (hqq : q * q ≤ n) (_hq5 : 5 ≤ q) :
    ∀ k i, 5 ≤ i → i % 6 = 5 → (i + 6 * k = q ∨ i + 6 * k + 2 = q) →
      trialLoop n i = false := by
  intro k
  induction k with
  | zero =>
    intro i hi5 hi6 hor
    rw [trialLoop]
    have hiq : i ≤ q := by omega
    have hloop : i * i ≤ n := le_trans (Nat.mul_le_mul hiq hiq) hqq
    rw [if_pos hloop]
    have hz : n % i = 0 ∨ n % (i + 2) = 0 := by
      rcases hor with h | h
      · left
        have : i = q := by omega
        rw [this]
        exact Nat.mod_eq_zero_of_dvd hdvd
      · right
        have : i + 2 = q := by omega
        rw [this]
        exact Nat.mod_eq_zero_of_dvd hdvd
    rcases hz with h | h <;> simp [h]
  | succ k ih =>
    intro i hi5 hi6 hor
    rw [trialLoop]
    have hiq : i < q := by omega
    have hloop : i * i ≤ n := le_trans (Nat.mul_le_mul (by omega) (by omega)) hqq
    rw [if_pos hloop]
    by_cases hdiv : n % i = 0 || n % (i + 2) = 0
    · simp [hdiv]
    · rw [if_neg hdiv]
      exact ih (i + 6) (by omega) (by omega) (by omega)

theorem trialLoop_eq_false_of_not_prime {n : ℕ} (hn : 3 < n) (h2 : ¬ 2 ∣ n)
    (h3 : ¬ 3 ∣ n) (hnp : ¬ Nat.Prime n) : trialLoop n 5 = false := by
  have hq : (n.minFac).Prime := Nat.minFac_prime (by omega)
  have hqd : n.minFac ∣ n := Nat.minFac_dvd n
  have hsq : n.minFac ^ 2 ≤ n := Nat.minFac_sq_le_self (by omega) hnp
  have hq2 : n.minFac ≠ 2 := fun hc => h2 (hc ▸ hqd)
  have hq3 : n.minFac ≠ 3 := fun hc => h3 (hc ▸ hqd)
  have hq4 : n.minFac ≠ 4 := fun hc => by
    rw [hc] at hq
    norm_num at hq
  have hq5 : 5 ≤ n.minFac := by
    have := hq.two_le
    omega
  have hqq : n.minFac * n.minFac ≤ n := by
    have hpow : n.minFac ^ 2 = n.minFac * n.minFac := by ring
    omega
  have hmod : n.minFac % 6 = 1 ∨ n.minFac % 6 = 5 := by
    have hd2 : ¬ 2 ∣ n.minFac := fun hd => h2 (hd.trans hqd)
    have hd3 : ¬ 3 ∣ n.minFac := fun hd => h3 (hd.trans hqd)
    omega
  rcases hmod with h1 | h5
  · exact trialLoop_false_aux hqd hqq hq5 ((n.minFac - 7) / 6) 5 (by omega) (by omega)
      (by omega)
  · exact trialLoop_false_aux hqd hqq hq5 ((n.minFac - 5) / 6) 5 (by omega) (by omega)
      (by omega)

theorem trialLoop_divisor_of_false {n : ℕ} (i : ℕ) (hi5 : 5 ≤ i)
    (hfalse : trialLoop n i = false) : ∃ d, 1 < d ∧ d < n ∧ d ∣ n := by
  have H : ∀ m, ∀ i, n + 1 - i * i = m → 5 ≤ i → trialLoop n i = false →
      ∃ d, 1 < d ∧ d < n ∧ d ∣ n := by
    intro m
    induction m using Nat.strong_induction_on with
    | _ m ih =>
      intro i hm hi5 hf
      rw [trialLoop] at hf
      by_cases hii : i * i ≤ n
      · rw [if_pos hii] at hf
        by_cases hdiv : n % i = 0 || n % (i + 2) = 0
        · simp only [Bool.or_eq_true, decide_eq_true_eq] at hdiv
          rcases hdiv with h | h
          · exact ⟨i, by omega, by nlinarith, Nat.dvd_of_mod_eq_zero h⟩
          · exact ⟨i + 2, by omega, by nlinarith, Nat.dvd_of_mod_eq_zero h⟩
        · rw [if_neg hdiv] at hf
          have hlt : i * i < (i + 6) * (i + 6) := by nlinarith
          exact ih (n + 1 - (i + 6) * (i + 6)) (by omega) (i + 6) rfl (by omega) hf
      · rw [if_neg hii] at hf
        exact absurd hf (by simp)
  exact H (n + 1 - i * i) i rfl hi5 hfalse

/-- The BigInt fallback path decides primality correctly on every
nonnegative input. -/
theorem is_prime_big_iff (n : ℕ) : is_prime_big n = true ↔ Nat.Prime n := by
  unfold is_prime_big
  split_ifs with h123 hdiv
  · constructor
    · intro ht
      simp only [decide_eq_true_eq] at ht
      have hn : n = 2 ∨ n = 3 := by omega
      rcases hn with rfl | rfl
      · norm_num
      · norm_num
    · intro hp
      simp only [decide_eq_true_eq]
      exact hp.one_lt
  · push_neg at h123
    constructor
    · intro hf
      exact absurd hf (by simp)
    · intro hp
      exfalso
      rcases hdiv with hd | hd
      · have hdd : (2 : ℕ) ∣ n := Nat.dvd_of_mod_eq_zero hd
        rcases hp.eq_one_or_self_of_dvd 2 hdd with hh | hh <;> omega
      · have hdd : (3 : ℕ) ∣ n := Nat.dvd_of_mod_eq_zero hd
        rcases hp.eq_one_or_self_of_dvd 3 hdd with hh | hh <;> omega
  · push_neg at h123 hdiv
    have hn : 3 < n := by omega
    have h2' : ¬ 2 ∣ n := by omega
    have h3' : ¬ 3 ∣ n := by omega
    constructor
    · intro ht
      by_contra hnp
      rw [trialLoop_eq_false_of_not_prime hn h2' h3' hnp] at ht
      exact absurd ht (by simp)
    · intro hp
      by_contra hf
      have hf' : trialLoop n 5 = false := by
        revert hf
        cases trialLoop n 5 <;> simp
      obtain ⟨d, hd1, hdn, hdd⟩ := trialLoop_divisor_of_false 5 (le_refl 5) hf'
      rcases hp.eq_one_or_self_of_dvd d hdd with h | h <;> omega

/-- Dual-path agreement with `Nat.Prime` on the inputs where both paths
are exact. -/
theorem is_prime_iff_prime {n : ℕ} (h : n < 2 ^ 53 ∨ 2 ^ 128 ≤ n) :
    is_prime n = true ↔ Nat.Prime n := by
  unfold is_prime
  have hlt : (2 : ℕ) ^ 53 < 2 ^ 128 := by norm_num
  split_ifs with h128
  · exact is_prime_u128_iff (by omega)
  · exact is_prime_big_iff n

theorem is_prime_eq_decide {n : ℕ} (h : n < 2 ^ 53) :
    is_prime n = decide (Nat.Prime n) := by
  have hi := is_prime_iff_prime (Or.inl h)
  by_cases hp : Nat.Prime n
  · rw [hi.mpr hp, decide_eq_true hp]
  · rw [decide_eq_false hp]
    exact Bool.eq_false_iff.mpr fun ht => hp (hi.mp ht)

/-! ## Evaluation of `is_prime` at the floating-point failure input -/

theorem pow_Pbad : Pbad ^ 2 = 1009633853517430557415672935760369 := by
  norm_num [Pbad]

/-- Conversion of `Pbad ^ 2` to binary64: the value lies in
`(2 ^ 109, 2 ^ 110)`, so the unit in the last place is `2 ^ 57`; the
remainder `Pbad ^ 2 mod 2 ^ 57` is below the half-ulp `2 ^ 56`, hence the
cast rounds down. -/
theorem roundF64_pow_Pbad :
    roundF64 1009633853517430557415672935760369 = 1009633853517430487948936152612864 := by
  have hlog : Nat.log2 1009633853517430557415672935760369 = 109 :=
    log2_eq_of_bounds (by norm_num) (by norm_num)
  simp only [roundF64]
  rw [if_neg (by norm_num), hlog]
  decide

theorem sqrt_roundF64_pow_Pbad :
    Nat.sqrt 1009633853517430487948936152612864 = 31774736088871461 :=
  sqrt_eq_of_bounds (by norm_num) (by norm_num)

theorem log2_sqrt_roundF64_pow_Pbad : Nat.log2 31774736088871461 = 54 :=
  log2_eq_of_bounds (by norm_num) (by norm_num)

/-- Correctly rounded binary64 square root of the converted value: the
real square root lies strictly between `Pbad - 2` and `Pbad - 1`; the
representable neighbours are multiples of 4 and the nearest one is
`Pbad - 3`, so truncation also yields `Pbad - 3`. -/
theorem truncF64Sqrt_pow_Pbad :
    truncF64Sqrt 1009633853517430487948936152612864 = 31774736088871460 := by
  simp only [truncF64Sqrt]
  rw [sqrt_roundF64_pow_Pbad, log2_sqrt_roundF64_pow_Pbad]
  decide

theorem is_prime_u128_pow_Pbad : is_prime_u128 (Pbad ^ 2) = true := by
  rw [pow_Pbad]
  unfold is_prime_u128
  rw [if_neg (by norm_num), if_neg (by norm_num), if_neg (by norm_num)]
  rw [roundF64_pow_Pbad, truncF64Sqrt_pow_Pbad]
  rw [List.all_eq_true]
  intro i hi
  rw [mem_trialList] at hi
  obtain ⟨h6, h5, hle⟩ := hi
  simp only [Bool.and_eq_true, decide_eq_true_eq]
  have hP : Nat.Prime Pbad := Pbad_prime
  have hPv : Pbad = 31774736088871463 := rfl
  constructor
  · intro hmod
    have hdvd : i ∣ Pbad ^ 2 := by
      rw [pow_Pbad]
      exact Nat.dvd_of_mod_eq_zero hmod
    obtain ⟨k, hk2, hik⟩ := (Nat.dvd_prime_pow hP).mp hdvd
    interval_cases k
    · rw [pow_zero] at hik
      omega
    · rw [pow_one, hPv] at hik
      omega
    · rw [pow_Pbad] at hik
      omega
  · intro hmod
    have hdvd : (i + 2) ∣ Pbad ^ 2 := by
      rw [pow_Pbad]
      exact Nat.dvd_of_mod_eq_zero hmod
    obtain ⟨k, hk2, hik⟩ := (Nat.dvd_prime_pow hP).mp hdvd
    interval_cases k
    · rw [pow_zero] at hik
      omega
    · rw [pow_one, hPv] at hik
      omega
    · rw [pow_Pbad] at hik
      omega

theorem is_prime_pow_Pbad : is_prime (Pbad ^ 2) = true := by
  unfold is_prime
  rw [if_pos (by norm_num [Pbad])]
  exact is_prime_u128_pow_Pbad

/-! ## CSV writer and bounded-buffer lemmas -/

theorem writeAll_out_true (out : List Row) :
    ∀ es : List Entry, (writeAll ⟨true, out⟩ es).out = out ++ es.map renderEntry := by
  intro es
  induction es generalizing out with
  | nil => simp [writeAll]
  | cons e es ih =>
    simp only [writeAll, List.foldl_cons, List.map_cons]
    have hstep : serializeRecord ⟨true, out⟩ e = ⟨true, out ++ [renderEntry e]⟩ := by
      simp [serializeRecord]
    rw [hstep]
    have := ih (out ++ [renderEntry e])
    simp only [writeAll] at this
    rw [this]
    simp

/-- Behaviour of one fresh `csv::Writer` over a batch: an empty batch
writes nothing, a nonempty batch writes the header once followed by the
records in order. -/
theorem writeAll_out (es : List Entry) :
    (writeAll ⟨false, []⟩ es).out =
      if es = [] then [] else Row.header :: es.map renderEntry := by
  cases es with
  | nil => simp [writeAll]
  | cons e es =>
    simp only [writeAll, List.foldl_cons]
    have hstep : serializeRecord ⟨false, []⟩ e = ⟨true, [Row.header, renderEntry e]⟩ := by
      simp [serializeRecord]
    rw [hstep]
    have := writeAll_out_true [Row.header, renderEntry e] es
    simp only [writeAll] at this
    rw [this]
    simp

theorem flush_to_csv_storage (temp_storage : List Entry) (file : List Row) :
    (flush_to_csv temp_storage file).1 = [] := rfl

theorem flush_to_csv_file (temp_storage : List Entry) (file : List Row)
    (h : temp_storage ≠ []) :
    (flush_to_csv temp_storage file).2 =
      file ++ Row.header :: temp_storage.map renderEntry := by
  unfold flush_to_csv
  rw [writeAll_out, if_neg h]

theorem renderEntry_ne_header (e : Entry) : renderEntry e ≠ Row.header := by
  simp [renderEntry]

theorem dataRows_append (f g : List Row) :
    dataRows (f ++ g) = dataRows f ++ dataRows g := by
  simp [dataRows]

theorem dataRows_batch (es : List Entry) :
    dataRows (Row.header :: es.map renderEntry) = es.map renderEntry := by
  unfold dataRows
  rw [List.filter_cons]
  simp only [decide_eq_true_eq]
  rw [if_neg (by simp)]
  rw [List.filter_eq_self.mpr]
  intro r hr
  rw [List.mem_map] at hr
  obtain ⟨e, _, rfl⟩ := hr
  simp [renderEntry]

/-- Invariant of the append loop: the data rows already flushed plus the
records still buffered are exactly the records appended so far, in
order; the flush counter advances by one per full batch of
`FLUSH_THRESHOLD` records; the buffer never holds a full batch between
appends. -/
theorem foldl_appendEntry_inv (es : List Entry) :
    ∀ (storage : List Entry) (file : List Row) (flushes : ℕ),
      storage.length < FLUSH_THRESHOLD →
      (es.foldl appendEntry ⟨storage, file, flushes⟩).flushes
          = flushes + (storage.length + es.length) / FLUSH_THRESHOLD ∧
      (es.foldl appendEntry ⟨storage, file, flushes⟩).storage.length
          = (storage.length + es.length) % FLUSH_THRESHOLD ∧
      dataRows (es.foldl appendEntry ⟨storage, file, flushes⟩).file
            ++ ((es.foldl appendEntry ⟨storage, file, flushes⟩).storage).map renderEntry
          = dataRows file ++ (storage ++ es).map renderEntry := by
  have hT : FLUSH_THRESHOLD = 10000 := rfl
  induction es with
  | nil =>
    intro storage file flushes hlen
    rw [hT] at hlen
    simp only [List.foldl_nil, List.append_nil, List.length_nil, hT]
    refine ⟨by omega, by omega, by simp⟩
  | cons e es ih =>
    intro storage file flushes hlen
    rw [hT] at hlen
    simp only [List.foldl_cons]
    by_cases hfull : FLUSH_THRESHOLD ≤ (storage ++ [e]).length
    · have hstep : appendEntry ⟨storage, file, flushes⟩ e =
          ⟨[], file ++ Row.header :: (storage ++ [e]).map renderEntry, flushes + 1⟩ := by
        unfold appendEntry
        rw [if_pos hfull, flush_to_csv_storage, flush_to_csv_file _ _ (by simp)]
      rw [hT] at hfull
      simp only [List.length_append, List.length_cons, List.length_nil] at hfull
      have hlen9 : storage.length = 9999 := by omega
      rw [hstep]
      obtain ⟨h1, h2, h3⟩ := ih []
        (file ++ Row.header :: (storage ++ [e]).map renderEntry) (flushes + 1)
        (by rw [hT]; simp)
      simp only [List.length_nil] at h1 h2
      rw [hT] at h1 h2
      refine ⟨?_, ?_, ?_⟩
      · rw [h1, hT]
        simp only [List.length_cons]
        omega
      · rw [h2, hT]
        simp only [List.length_cons]
        omega
      · rw [h3]
        rw [dataRows_append, dataRows_batch]
        simp [List.map_append]
    · have hstep : appendEntry ⟨storage, file, flushes⟩ e =
          ⟨storage ++ [e], file, flushes⟩ := by
        unfold appendEntry
        rw [if_neg hfull]
      rw [hT] at hfull
      simp only [List.length_append, List.length_cons, List.length_nil] at hfull
      rw [hstep]
      obtain ⟨h1, h2, h3⟩ := ih (storage ++ [e]) file flushes
        (by rw [hT]; simp only [List.length_append, List.length_cons, List.length_nil]; omega)
      simp only [List.length_append, List.length_cons, List.length_nil] at h1 h2
      rw [hT] at h1 h2
      refine ⟨?_, ?_, ?_⟩
      · rw [h1, hT]
        simp only [List.length_cons]
        omega
      · rw [h2, hT]
        simp only [List.length_cons]
        omega
      · rw [h3]
        simp

/-! ## Evaluation of the scan over the range 2 to 20 -/

theorem is_prime_2 : is_prime 2 = true := by
  rw [is_prime_eq_decide (by norm_num)]
  decide

theorem is_prime_3 : is_prime 3 = true := by
  rw [is_prime_eq_decide (by norm_num)]
  decide

theorem is_prime_5 : is_prime 5 = true := by
  rw [is_prime_eq_decide (by norm_num)]
  decide

theorem is_prime_7 : is_prime 7 = true := by
  rw [is_prime_eq_decide (by norm_num)]
  decide

theorem is_prime_9 : is_prime 9 = false := by
  rw [is_prime_eq_decide (by norm_num)]
  decide

theorem is_prime_11 : is_prime 11 = true := by
  rw [is_prime_eq_decide (by norm_num)]
  decide

theorem is_prime_13 : is_prime 13 = true := by
  rw [is_prime_eq_decide (by norm_num)]
  decide

theorem is_prime_15 : is_prime 15 = false := by
  rw [is_prime_eq_decide (by norm_num)]
  decide

theorem is_prime_17 : is_prime 17 = true := by
  rw [is_prime_eq_decide (by norm_num)]
  decide

theorem is_prime_19 : is_prime 19 = true := by
  rw [is_prime_eq_decide (by norm_num)]
  decide

theorem candidates_2_20 : candidates 2 20 = [2, 3, 5, 7, 9, 11, 13, 15, 17, 19] := by
  decide

theorem runScan_2_20 :
    runScan 2 20 =
      (⟨[],
        [Row.header,
         Row.data ["2", "4", "8", "16"],
         Row.data ["3", "9", "27", "81"],
         Row.data ["5", "25", "125", "625"],
         Row.data ["7", "49", "343", "2401"],
         Row.data ["11", "121", "1331", "14641"],
         Row.data ["13", "169", "2197", "28561"],
         Row.data ["17", "289", "4913", "83521"],
         Row.data ["19", "361", "6859", "130321"]],
        0⟩, true) := by
  unfold runScan
  rw [candidates_2_20]
  simp only [List.foldl_cons, List.foldl_nil, processCandidate,
    is_prime_2, is_prime_3, is_prime_5, is_prime_7, is_prime_9, is_prime_11,
    is_prime_13, is_prime_15, is_prime_17, is_prime_19,
    calculate_powers, u128_to_bigint, appendEntry, FLUSH_THRESHOLD,
    if_true, if_false]
  decide

/-! ## Claim theorems -/

/-- C1: the claim states that `is_prime` returns true iff its argument is
prime, for every nonnegative input — equivalently, for `N > 3`, true iff
`N` has no divisor `d` with `2 ≤ d ≤ √N`. The code violates this: at the
failing input `N = Pbad ^ 2` (with `Pbad = 31774736088871463` prime) the
floating-point square root inside the u128 fast path computes the trial
limit `Pbad - 2`, strictly below the only nontrivial divisor `Pbad`, so
`is_prime` returns true although `Pbad` divides `N` and
`2 ≤ Pbad ≤ √N`. -/
theorem c1_is_prime_float_failure :
    is_prime (Pbad ^ 2) = true ∧
    2 ≤ Pbad ∧ Pbad ≤ Nat.sqrt (Pbad ^ 2) ∧ Pbad ∣ Pbad ^ 2 ∧
    ¬ Nat.Prime (Pbad ^ 2) := by
  refine ⟨is_prime_pow_Pbad, by norm_num [Pbad], ?_, dvd_pow_self _ (by norm_num), ?_⟩
  · rw [Nat.sqrt_eq']
  · intro hp
    rcases hp.eq_one_or_self_of_dvd Pbad (dvd_pow_self _ (by norm_num)) with h | h
    · norm_num [Pbad] at h
    · rw [pow_Pbad] at h
      norm_num [Pbad] at h

/-- C2: for every prime `N` representable as `u128`, `calculate_powers N`
returns exactly `(N ^ 2, N ^ 3, N ^ 4)`, computed as `square = N * N`,
`cube = square * N`, `fourthPower = square * square` on arbitrary-precision
integers (so also when `N ^ 2` exceeds the 128-bit range). -/
theorem c2_calculate_powers_exact (n : ℕ) (_hp : Nat.Prime n) (_h128 : n < 2 ^ 128) :
    calculate_powers n = some (n ^ 2, n ^ 3, n ^ 4) := by
  have h : calculate_powers n = some (n * n, n * n * n, (n * n) * (n * n)) := rfl
  rw [h]
  simp only [Option.some.injEq, Prod.mk.injEq]
  refine ⟨by ring, by ring, by ring⟩

theorem c2_calculate_powers_exact_witness :
    calculate_powers 3 = some (3 ^ 2, 3 ^ 3, 3 ^ 4) :=
  c2_calculate_powers_exact 3 (by norm_num) (by norm_num)

/-- C3: a run appending `K` records with threshold `T = 10000` performs
exactly `⌊K / T⌋` threshold-triggered flushes, and the final drain flush
happens iff `K mod T ≠ 0` (in particular it does not happen when
`K mod T = 0`, whether or not `K > 0`). -/
theorem c3_flush_counts (es : List Entry) :
    (es.foldl appendEntry ⟨[], [], 0⟩).flushes = es.length / FLUSH_THRESHOLD ∧
    ((drainRemaining (es.foldl appendEntry ⟨[], [], 0⟩)).2 = true ↔
      es.length % FLUSH_THRESHOLD ≠ 0) := by
  obtain ⟨h1, h2, _⟩ := foldl_appendEntry_inv es [] [] 0
    (by rw [show FLUSH_THRESHOLD = 10000 from rfl]; simp)
  simp only [List.length_nil, Nat.zero_add] at h1 h2
  refine ⟨h1, ?_⟩
  unfold drainRemaining
  split_ifs with hemp
  · have hl : (es.foldl appendEntry ⟨[], [], 0⟩).storage.length = 0 := by
      rw [hemp]
      rfl
    rw [h2] at hl
    simp [hl]
  · have hl : (es.foldl appendEntry ⟨[], [], 0⟩).storage.length ≠ 0 := by
      intro hc
      exact hemp (List.length_eq_zero.mp hc)
    rw [h2] at hl
    simp [hl]

/-- C4: every record appended to the buffer is written to the CSV file
exactly once and in append order (in the batch whose threshold-crossing
append triggered the flush, or in the final drain), and the buffer is
exactly empty after each flush. -/
theorem c4_records_flushed_once (es : List Entry) (storage : List Entry) (file : List Row) :
    dataRows ((drainRemaining (es.foldl appendEntry ⟨[], [], 0⟩)).1).file
        = es.map renderEntry ∧
    ((drainRemaining (es.foldl appendEntry ⟨[], [], 0⟩)).1).storage = [] ∧
    (flush_to_csv storage file).1 = [] := by
  obtain ⟨_, _, h3⟩ := foldl_appendEntry_inv es [] [] 0
    (by rw [show FLUSH_THRESHOLD = 10000 from rfl]; simp)
  simp only [List.nil_append] at h3
  have hdr : dataRows ([] : List Row) = [] := rfl
  rw [hdr] at h3
  simp only [List.nil_append] at h3
  unfold drainRemaining
  split_ifs with hemp
  · rw [hemp] at h3
    simp only [List.map_nil, List.append_nil] at h3
    exact ⟨h3, hemp, rfl⟩
  · refine ⟨?_, rfl, rfl⟩
    rw [flush_to_csv_file _ _ hemp, dataRows_append, dataRows_batch]
    exact h3

/-- C5 counterexample: the claim states that a worker-count value below 1
is rejected fatally and that a valid value is used as the exact pool
size. The code does neither: a parsed value 0 is not rejected (the pool
is built with 1 thread and the run proceeds), and a valid value 4 yields
a pool of 3 threads, not 4. -/
theorem c5_worker_count_counterexample :
    thread_count 0 = 1 ∧ thread_count 4 = 3 ∧ thread_count 4 ≠ 4 := by
  decide

/-- C5 amended: a worker-count value that parses as a `usize` is never
rejected; the pool size is `max 1 (v - 1)` — so 0 and 1 both yield one
thread, and any `v ≥ 2` yields `v - 1` threads, never `v`. The pool size
is always at least 1. -/
theorem c5_worker_count_amended (v : ℕ) :
    thread_count v = max 1 (v - 1) ∧ 1 ≤ thread_count v := by
  unfold thread_count
  split_ifs with h <;> omega

/-- C6 counterexample: the claim states that the header row is written
exactly once when the output file did not previously exist and is never
re-emitted when appending. In the code every flush builds a fresh
`csv::Writer` over the file opened in append mode, and the writer emits a
header before its first record: two successive one-record flushes
starting from a nonexistent file leave two header rows in the file. -/
theorem c6_header_counterexample :
    ((flush_to_csv [(5, 25, 125, 625)]
        (flush_to_csv [(5, 25, 125, 625)] []).2).2).count Row.header = 2 := by
  decide

/-- C6 amended: every flush of a nonempty batch appends one header row
followed by the batch records, regardless of the existing file contents —
one header per nonempty flush, re-emitted on every append. -/
theorem c6_header_amended (temp_storage : List Entry) (file : List Row)
    (h : temp_storage ≠ []) :
    (flush_to_csv temp_storage file).2 =
      file ++ Row.header :: temp_storage.map renderEntry :=
  flush_to_csv_file temp_storage file h

theorem c6_header_amended_witness :
    (flush_to_csv [(5, 25, 125, 625)] []).2 =
      [] ++ Row.header :: [((5 : ℕ), (25 : ℕ), (125 : ℕ), (625 : ℕ))].map renderEntry :=
  c6_header_amended [(5, 25, 125, 625)] [] (by simp)

/-- C7: on every `N ≤ 10000` the native u128 fast path and the
arbitrary-precision fallback path of `is_prime` return the same
boolean. -/
theorem c7_fast_and_fallback_agree (n : ℕ) (h : n ≤ 10000) :
    is_prime_u128 n = is_prime_big n := by
  have h53 : n < 2 ^ 53 := by
    have hc : (10000 : ℕ) < 2 ^ 53 := by norm_num
    omega
  have h1 := is_prime_u128_iff h53
  have h2 := is_prime_big_iff n
  by_cases hp : Nat.Prime n
  · rw [h1.mpr hp, h2.mpr hp]
  · rw [Bool.eq_false_iff.mpr fun ht => hp (h1.mp ht),
      Bool.eq_false_iff.mpr fun ht => hp (h2.mp ht)]

theorem c7_fast_and_fallback_agree_witness :
    is_prime_u128 9973 = is_prime_big 9973 :=
  c7_fast_and_fallback_agree 9973 (by norm_num)

/-- C8: scanning the inclusive range `[2, 20]` discovers exactly the
primes 2, 3, 5, 7, 11, 13, 17, 19; the resulting file holds exactly 8
record rows; and the row for prime 5 carries the rendered fields
`"25"`, `"125"`, `"625"`. -/
theorem c8_scan_range_2_20 :
    ((candidates 2 20).filter fun n => is_prime n) = [2, 3, 5, 7, 11, 13, 17, 19] ∧
    (dataRows (runScan 2 20).1.file).length = 8 ∧
    Row.data ["5", "25", "125", "625"] ∈ (runScan 2 20).1.file := by
  refine ⟨?_, ?_, ?_⟩
  · rw [candidates_2_20]
    simp [is_prime_2, is_prime_3, is_prime_5, is_prime_7, is_prime_9, is_prime_11,
      is_prime_13, is_prime_15, is_prime_17, is_prime_19]
  · rw [runScan_2_20]
    decide
  · rw [runScan_2_20]
    decide

/-- C9: `calculate_powers` never returns `none` (the `u128` to `BigInt`
conversion always succeeds), so the overflow-diagnostic branch of the
worker closure is unreachable: the worker either appends the record of
the computed powers or skips a non-prime, never the overflow arm. -/
theorem c9_no_overflow_branch (st : RunState) (n : ℕ) :
    calculate_powers n = some (n * n, n * n * n, (n * n) * (n * n)) ∧
    processCandidate st n =
      if is_prime n then appendEntry st (n, n * n, n * n * n, (n * n) * (n * n))
      else st := by
  exact ⟨rfl, rfl⟩

/-- C10: no statement of the program inserts into `primes_and_powers`,
so the final `write_to_csv` call writes zero rows: the file is unchanged
by it, and every persisted data row comes from `flush_to_csv`. -/
theorem c10_final_map_empty (file : List Row) :
    primes_and_powers = [] ∧
    write_to_csv primes_and_powers file = file ∧
    dataRows (write_to_csv primes_and_powers file) = dataRows file := by
  have h : write_to_csv primes_and_powers file = file := by
    simp [write_to_csv, primes_and_powers, writeAll]
  exact ⟨rfl, h, by rw [h]⟩

theorem c3_flush_counts_witness :
    (([((2 : ℕ), (4 : ℕ), (8 : ℕ), (16 : ℕ))]).foldl appendEntry ⟨[], [], 0⟩).flushes
        = [((2 : ℕ), (4 : ℕ), (8 : ℕ), (16 : ℕ))].length / FLUSH_THRESHOLD ∧
    ((drainRemaining (([((2 : ℕ), (4 : ℕ), (8 : ℕ), (16 : ℕ))]).foldl appendEntry
        ⟨[], [], 0⟩)).2 = true ↔
      [((2 : ℕ), (4 : ℕ), (8 : ℕ), (16 : ℕ))].length % FLUSH_THRESHOLD ≠ 0) :=
  c3_flush_counts [(2, 4, 8, 16)]

theorem c4_records_flushed_once_witness :
    dataRows ((drainRemaining (([((2 : ℕ), (4 : ℕ), (8 : ℕ), (16 : ℕ))]).foldl
        appendEntry ⟨[], [], 0⟩)).1).file
        = [((2 : ℕ), (4 : ℕ), (8 : ℕ), (16 : ℕ))].map renderEntry ∧
    ((drainRemaining (([((2 : ℕ), (4 : ℕ), (8 : ℕ), (16 : ℕ))]).foldl
        appendEntry ⟨[], [], 0⟩)).1).storage = [] ∧
    (flush_to_csv [((3 : ℕ), (9 : ℕ), (27 : ℕ), (81 : ℕ))] [Row.header]).1 = [] :=
  c4_records_flushed_once [(2, 4, 8, 16)] [(3, 9, 27, 81)] [Row.header]

theorem c5_worker_count_amended_witness :
    thread_count 0 = max 1 (0 - 1) ∧ 1 ≤ thread_count 0 :=
  c5_worker_count_amended 0

theorem c9_no_overflow_branch_witness :
    calculate_powers 7 = some (7 * 7, 7 * 7 * 7, (7 * 7) * (7 * 7)) ∧
    processCandidate ⟨[], [], 0⟩ 7 =
      if is_prime 7 then appendEntry ⟨[], [], 0⟩ (7, 7 * 7, 7 * 7 * 7, (7 * 7) * (7 * 7))
      else (⟨[], [], 0⟩ : RunState) :=
  c9_no_overflow_branch ⟨[], [], 0⟩ 7

theorem c10_final_map_empty_witness :
    primes_and_powers = [] ∧
    write_to_csv primes_and_powers [Row.header] = [Row.header] ∧
    dataRows (write_to_csv primes_and_powers [Row.header]) = dataRows [Row.header] :=
  c10_final_map_empty [Row.header]
